/-
Verification of the rv6 file-system core (kernel-rs): the redo log
(fs/log.rs), the file layer (file.rs) and the file-system system calls
(sysfile.rs), shallowly embedded in Lean 4.

Machine integers are modelled as Nat/Int; `usize::MAX` is 2^64 - 1.
Constants come from param.rs (values stated in the specification, §6).
-/
import Mathlib

namespace Rv6

/-! ## Constants (param.rs; values per spec §6) -/

def MAXOPBLOCKS : Nat := 10
def LOGSIZE : Nat := 30
def BSIZE : Nat := 1024
def NDEV : Nat := 10

/-- `usize::MAX` on the 64-bit target. -/
def usizeMAX : Nat := 2 ^ 64 - 1

/-! ## Log state (fs/log.rs, `LogInner`)

`LogInner { dev, start, size, outstanding: i32, committing: bool,
bufs: ArrayVec<BufUnlocked, LOGSIZE> }`.  For admission control only the
counters and the number of recorded buffers matter; `bufs` is modelled by
its list of recorded block numbers. -/

structure LogInner where
  start : Nat
  size : Nat
  outstanding : Int
  committing : Bool
  bufs : List Nat
  deriving Repr, DecidableEq

/-! ## begin_op (Log::begin_op, fs/log.rs lines 129-142)

The body is a loop under the log lock: while `committing` is true or
`bufs.len() + (outstanding+1)*MAXOPBLOCKS > LOGSIZE`, sleep (releasing the
lock, so the state observed at the next iteration is arbitrary); otherwise
increment `outstanding` and return.  One iteration is `beginOpStep`
(`none` = the guard failed and the caller sleeps); the loop over the
sequence of states observed at successive wake-ups is `beginOpLoop`. -/

/-- The wait condition of `begin_op`, exactly as written in the source:
`guard.committing || guard.bufs.len() as i32 + (guard.outstanding + 1) *
MAXOPBLOCKS as i32 > LOGSIZE as i32`. -/
def beginOpBlocked (s : LogInner) : Bool :=
  s.committing ||
    decide ((s.bufs.length : Int) + (s.outstanding + 1) * (MAXOPBLOCKS : Int)
      > (LOGSIZE : Int))

def beginOpStep (s : LogInner) : Option LogInner :=
  if beginOpBlocked s then none
  else some { s with outstanding := s.outstanding + 1 }

def beginOpLoop : List LogInner → Option LogInner
  | [] => none
  | s :: rest =>
    match beginOpStep s with
    | some s' => some s'
    | none => beginOpLoop rest

/-! ## Log::write (fs/log.rs lines 295-306)

Asserts the transaction is not too big and `outstanding >= 1` (modelled as
`none` = panic), then pushes the buffer's block number unless one with the
same `blockno` is already recorded. -/

def logWrite (s : LogInner) (blockno : Nat) : Option LogInner :=
  if s.bufs.length ≥ LOGSIZE ∨ (s.bufs.length : Int) ≥ (s.size : Int) - 1 then
    none
  else if s.outstanding < 1 then
    none
  else if s.bufs.all (fun buf => buf ≠ blockno) then
    some { s with bufs := s.bufs ++ [blockno] }
  else
    some s

/-! ## The log transition system (C3)

Fine-grained steps of `begin_op` / `end_op` as interleaved by the log
lock.  `end_op` (lines 146-168) decrements `outstanding`, asserts
`!committing`, and if the result is 0 sets `committing := true`, releases
the lock around `commit`, then clears `committing`.  The lock release
during commit makes the intermediate state `(outstanding = 0,
committing = true)` observable, so it is a state of the system and the
commit's completion is a separate step.  An `end_op` step is enabled only
for a caller that holds an admitted operation, hence only when
`outstanding ≥ 1`; a `write` step likewise.  `¬committing` on the end
steps mirrors the source assertion `assert!(!guard.committing)`. -/

inductive LogStep : LogInner → LogInner → Prop
  /-- A `begin_op` iteration whose guard passes: `outstanding += 1`. -/
  | beginOp (s : LogInner) (h : beginOpBlocked s = false) :
      LogStep s { s with outstanding := s.outstanding + 1 }
  /-- `Log::write` by an admitted operation records a block. -/
  | write (s : LogInner) (b : Nat) (s' : LogInner) (h : logWrite s b = some s') :
      LogStep s s'
  /-- `end_op` whose decremented count is nonzero: no commit. -/
  | endOpNoCommit (s : LogInner) (h1 : 1 ≤ s.outstanding)
      (h2 : s.committing = false) (h3 : s.outstanding - 1 ≠ 0) :
      LogStep s { s with outstanding := s.outstanding - 1 }
  /-- `end_op` reaching zero: sets `committing` and releases the lock. -/
  | endOpCommit (s : LogInner) (h1 : 1 ≤ s.outstanding)
      (h2 : s.committing = false) (h3 : s.outstanding - 1 = 0) :
      LogStep s { s with outstanding := 0, committing := true }
  /-- The commit finishes: `bufs` drained, `committing` cleared. -/
  | commitDone (s : LogInner) (h1 : s.committing = true) :
      LogStep s { s with bufs := [], committing := false }

/-- Reachability from a state by `LogStep`s. -/
def LogReach : LogInner → LogInner → Prop :=
  Relation.ReflTransGen LogStep

/-- The initial log state after `Log::init` on device `dev` with layout
`(start, size)`: `outstanding = 0`, `committing = false`, empty `bufs`. -/
def logInit (start size : Nat) : LogInner :=
  { start := start, size := size, outstanding := 0, committing := false,
    bufs := [] }

/-- The C3 invariant: a nonnegative operation count, and never both
`committing` and a positive count. -/
def logInv (s : LogInner) : Prop :=
  0 ≤ s.outstanding ∧ (s.committing = true → s.outstanding = 0)

theorem logInv_init (start size : Nat) : logInv (logInit start size) := by
  constructor <;> simp [logInit]

theorem logInv_step {s s' : LogInner} (hs : logInv s) (h : LogStep s s') :
    logInv s' := by
  obtain ⟨hpos, hcom⟩ := hs
  cases h with
  | beginOp hg =>
      refine ⟨by simp only [logInv]; omega, ?_⟩
      intro hc
      simp only at hc
      have hb : beginOpBlocked _ = false := hg
      unfold beginOpBlocked at hb
      simp only [Bool.or_eq_false_iff] at hb
      simp only at *
      rw [hb.1] at hc
      exact absurd hc (by simp)
  | write b s' hw =>
      unfold logWrite at hw
      split at hw
      · exact absurd hw (by simp)
      · split at hw
        · exact absurd hw (by simp)
        · split at hw <;> simp only [Option.some.injEq] at hw <;> subst hw
          · exact ⟨hpos, hcom⟩
          · exact ⟨hpos, hcom⟩
  | endOpNoCommit h1 h2 h3 =>
      refine ⟨by simp only; omega, ?_⟩
      simp only
      intro hc
      exact absurd hc (by simp [h2])
  | endOpCommit h1 h2 h3 =>
      exact ⟨by simp only; omega, by simp only; intro; trivial⟩
  | commitDone h1 =>
      refine ⟨hpos, ?_⟩
      simp only
      intro hc
      exact absurd hc (by simp)

/-! ## end_op as a function with an event trace (fs/log.rs lines 146-168)

Effects visible outside the log state: whether the commit ran, and the
final `wakeup` broadcast on the log's condition variable.  The disk
effects of the commit are modelled separately below.  `none` models the
panic of `assert!(!guard.committing)`. -/

inductive LogEv where
  | commitRun
  | wakeup
  deriving Repr, DecidableEq

def endOp (s : LogInner) : Option (LogInner × List LogEv) :=
  if s.committing then none
  else if s.outstanding - 1 = 0 then
    some ({ s with outstanding := 0, bufs := [], committing := false },
      [LogEv.commitRun, LogEv.wakeup])
  else
    some ({ s with outstanding := s.outstanding - 1 }, [LogEv.wakeup])

/-! ## Disk and buffer-cache state for commit and recovery

`disk.read(dev, bno)` goes through the buffer cache; `disk.write(buf)`
writes the buffer to disk, so the cache and the disk agree on a block right
after it is written (write-through).  `cache` is the content a read
returns, `disk` the on-disk content.  The header block at `start` is only
ever accessed through the `LogHeader` view (read_head/write_head), so its
content is kept as the fields `hdrN` (the `n` field) and `hdrB` (the
`block` array, as a function from index to block number). -/

@[ext]
structure DiskSt where
  hdrN : Nat
  hdrB : Nat → Nat
  disk : Nat → Nat
  cache : Nat → Nat

/-- A disk write observed on the bus: either a raw block write or a write
of the header block (recorded with its `n` and its first `n` entries). -/
inductive DWrite where
  | blk (bno : Nat) (v : Nat)
  | head (n : Nat) (blks : List Nat)
  deriving Repr, DecidableEq

/-- `self.disk.write(&mut buf)`: the buffer's bytes become both the cached
and the on-disk content of its block. -/
def diskWriteBlk (d : DiskSt) (bno v : Nat) : DiskSt :=
  { d with
    disk := fun x => if x = bno then v else d.disk x,
    cache := fun x => if x = bno then v else d.cache x }

/-- `LogLocked::write_log` (fs/log.rs lines 252-269): for each recorded
buffer at index `tail`, read the cached home block, copy it into log block
`start + tail + 1`, and write that log block. -/
def writeLogAux (start : Nat) : Nat → List Nat → DiskSt → DiskSt × List DWrite
  | _, [], d => (d, [])
  | i, b :: rest, d =>
    let v := d.cache b
    let r := writeLogAux start (i + 1) rest (diskWriteBlk d (start + i + 1) v)
    (r.1, DWrite.blk (start + i + 1) v :: r.2)

def writeLog (s : LogInner) (d : DiskSt) : DiskSt × List DWrite :=
  writeLogAux s.start 0 s.bufs d

/-- `LogLocked::write_head` (fs/log.rs lines 222-239): read the header
block, set `n := bufs.len()`, overwrite `block[i] := bufs[i].blockno` for
`i < bufs.len()` (the `izip!` stops at the shorter list, so the tail of
`block` keeps its previous content), and write the header block. -/
def writeHead (s : LogInner) (d : DiskSt) : DiskSt × List DWrite :=
  ({ d with
      hdrN := s.bufs.length,
      hdrB := fun i => s.bufs.getD i (d.hdrB i) },
   [DWrite.head s.bufs.length
      ((List.range s.bufs.length).map fun i => s.bufs.getD i (d.hdrB i))])

/-- `LogLocked::install_trans` (fs/log.rs lines 179-198): drain `bufs`;
for each recorded buffer at index `tail`, read log block
`start + tail + 1` (through the cache), copy it into the home block's
buffer and write that buffer to disk. -/
def installTransAux (start : Nat) : Nat → List Nat → DiskSt → DiskSt × List DWrite
  | _, [], d => (d, [])
  | i, b :: rest, d =>
    let v := d.cache (start + i + 1)
    let r := installTransAux start (i + 1) rest (diskWriteBlk d b v)
    (r.1, DWrite.blk b v :: r.2)

def installTrans (s : LogInner) (d : DiskSt) : LogInner × DiskSt × List DWrite :=
  let r := installTransAux s.start 0 s.bufs d
  ({ s with bufs := [] }, r.1, r.2)

/-- `LogLocked::read_head` (fs/log.rs lines 201-217): read the header
block, then read each of the `n` recorded home blocks into the cache and
push their (unlocked) buffers onto `bufs`. -/
def readHead (s : LogInner) (d : DiskSt) : LogInner :=
  { s with bufs := s.bufs ++ (List.range d.hdrN).map d.hdrB }

/-- `LogLocked::recover_from_log` (fs/log.rs lines 241-249):
`read_head`, then `install_trans` (which drains `bufs`), then
`write_head` (which, with the drained `bufs`, writes `n = 0`). -/
def recoverFromLog (s : LogInner) (d : DiskSt) : LogInner × DiskSt × List DWrite :=
  let s1 := readHead s d
  let r := installTrans s1 d
  let r2 := writeHead r.1 r.2.1
  (r.1, r2.1, r.2.2 ++ r2.2)

/-- `LogLocked::commit` (fs/log.rs lines 271-285): if `bufs` is nonempty,
`write_log`, `write_head` (the commit point), `install_trans` (drains
`bufs`), `write_head` again (now with `n = 0`). -/
def commit (s : LogInner) (d : DiskSt) : LogInner × DiskSt × List DWrite :=
  if s.bufs.isEmpty then (s, d, [])
  else
    let r1 := writeLog s d
    let r2 := writeHead s r1.1
    let r3 := installTrans s r2.1
    let r4 := writeHead r3.1 r3.2.1
    (r3.1, r4.1, r1.2 ++ r2.2 ++ r3.2.2 ++ r4.2)

/-! ## Helper lemmas about the commit phases -/

/-- The first `l.length` entries written by `write_head` are exactly the
recorded block numbers, whatever the header block held before. -/
theorem range_map_getD (l : List Nat) (f : Nat → Nat) :
    (List.range l.length).map (fun i => l.getD i (f i)) = l := by
  apply List.ext_get
  · simp
  · intro n h1 h2
    simp only [List.length_map, List.length_range] at h1
    simp [List.getD_eq_getElem?_getD, List.getElem?_eq_getElem h1]

/-- Behaviour of `write_log`'s loop: it emits one log-block write per
recorded buffer carrying the home block's cached bytes, leaves the header
untouched, fills the log blocks with the recorded caches, and changes
nothing outside the log blocks it writes.  The hypothesis is that no
recorded home block coincides with a log block (on a real disk the home
blocks lie beyond the log area). -/
theorem writeLogAux_spec (start : Nat) (bufs : List Nat) :
    ∀ (i : Nat) (d : DiskSt),
      (∀ b ∈ bufs, ∀ j, j < i + bufs.length → b ≠ start + j + 1) →
      ((writeLogAux start i bufs d).2
          = (bufs.enumFrom i).map
              (fun p => DWrite.blk (start + p.1 + 1) (d.cache p.2)))
      ∧ ((writeLogAux start i bufs d).1.hdrN = d.hdrN)
      ∧ ((writeLogAux start i bufs d).1.hdrB = d.hdrB)
      ∧ (∀ j (hj : j < bufs.length),
          (writeLogAux start i bufs d).1.cache (start + i + j + 1)
            = d.cache (bufs.get ⟨j, hj⟩))
      ∧ (∀ x, (∀ j, i ≤ j → j < i + bufs.length → x ≠ start + j + 1) →
          (writeLogAux start i bufs d).1.cache x = d.cache x
          ∧ (writeLogAux start i bufs d).1.disk x = d.disk x) := by
  induction bufs with
  | nil =>
      intro i d _
      refine ⟨rfl, rfl, rfl, ?_, ?_⟩
      · intro j hj; exact absurd hj (by simp)
      · intro x _; exact ⟨rfl, rfl⟩
  | cons b rest ih =>
      intro i d hd
      have hrest : ∀ b' ∈ rest, ∀ j, j < (i + 1) + rest.length
          → b' ≠ start + j + 1 := by
        intro b' hb' j hj
        exact hd b' (List.mem_cons_of_mem _ hb') j
          (by simp only [List.length_cons]; omega)
      obtain ⟨htr, hN, hB, hpos, hpres⟩ :=
        ih (i + 1) (diskWriteBlk d (start + i + 1) (d.cache b)) hrest
      have hbne : ∀ b' ∈ rest, b' ≠ start + i + 1 := by
        intro b' hb'
        exact hd b' (List.mem_cons_of_mem _ hb') i
          (by simp only [List.length_cons]; omega)
      refine ⟨?_, hN, hB, ?_, ?_⟩
      · show DWrite.blk (start + i + 1) (d.cache b)
            :: (writeLogAux start (i + 1) rest
                (diskWriteBlk d (start + i + 1) (d.cache b))).2 = _
        rw [htr, List.enumFrom_cons]
        simp only [List.map_cons]
        congr 1
        apply List.map_congr_left
        intro p hp
        obtain ⟨hp1, hp2, hp3⟩ := List.mem_enumFrom hp
        have hpmem : p.2 ∈ rest := by rw [hp3]; exact rest.getElem_mem _
        have hcongr :
            (diskWriteBlk d (start + i + 1) (d.cache b)).cache p.2
              = d.cache p.2 := by
          simp only [diskWriteBlk]
          exact if_neg (hbne p.2 hpmem)
        rw [hcongr]
      · intro j hj
        match j with
        | 0 =>
            show (writeLogAux start (i + 1) rest
                (diskWriteBlk d (start + i + 1) (d.cache b))).1.cache
                  (start + i + 0 + 1) = d.cache b
            have hx : ∀ j', i + 1 ≤ j' → j' < (i + 1) + rest.length
                → start + i + 0 + 1 ≠ start + j' + 1 := by
              intro j' h1 _; omega
            rw [(hpres _ hx).1]
            simp [diskWriteBlk]
        | j' + 1 =>
            have hj' : j' < rest.length := by simpa using hj
            have hstep := hpos j' hj'
            have harith : start + (i + 1) + j' + 1 = start + i + (j' + 1) + 1 := by
              omega
            rw [harith] at hstep
            show (writeLogAux start (i + 1) rest
                (diskWriteBlk d (start + i + 1) (d.cache b))).1.cache
                  (start + i + (j' + 1) + 1) = d.cache (rest.get ⟨j', hj'⟩)
            rw [hstep]
            simp only [diskWriteBlk]
            exact if_neg (hbne _ (rest.get_mem _ _))
      · intro x hx
        have hx' : ∀ j, i + 1 ≤ j → j < (i + 1) + rest.length
            → x ≠ start + j + 1 := by
          intro j h1 h2
          exact hx j (by omega) (by simp only [List.length_cons]; omega)
        obtain ⟨hc, hdk⟩ := hpres x hx'
        have hxne : x ≠ start + i + 1 :=
          hx i (le_refl i) (by simp only [List.length_cons]; omega)
        constructor
        · show (writeLogAux start (i + 1) rest
              (diskWriteBlk d (start + i + 1) (d.cache b))).1.cache x
                = d.cache x
          rw [hc]
          simp only [diskWriteBlk]
          exact if_neg hxne
        · show (writeLogAux start (i + 1) rest
              (diskWriteBlk d (start + i + 1) (d.cache b))).1.disk x
                = d.disk x
          rw [hdk]
          simp only [diskWriteBlk]
          exact if_neg hxne

/-- Behaviour of `install_trans`'s loop: with the log blocks holding the
value `f b` for the home block recorded at each index, it emits one home
block write per recorded buffer carrying `f b`, and afterwards every
recorded home block holds `f b` on disk while other blocks and the header
are untouched. -/
theorem installTransAux_spec (start : Nat) (f : Nat → Nat) (bufs : List Nat) :
    ∀ (i : Nat) (d : DiskSt),
      (∀ b ∈ bufs, ∀ j, j < i + bufs.length → b ≠ start + j + 1) →
      (∀ j (hj : j < bufs.length),
          d.cache (start + i + j + 1) = f (bufs.get ⟨j, hj⟩)) →
      ((installTransAux start i bufs d).2
          = (bufs.enumFrom i).map (fun p => DWrite.blk p.2 (f p.2)))
      ∧ (∀ b ∈ bufs, (installTransAux start i bufs d).1.disk b = f b)
      ∧ (∀ x, x ∉ bufs → (installTransAux start i bufs d).1.disk x = d.disk x)
      ∧ ((installTransAux start i bufs d).1.hdrN = d.hdrN)
      ∧ ((installTransAux start i bufs d).1.hdrB = d.hdrB) := by
  induction bufs with
  | nil =>
      intro i d _ _
      exact ⟨rfl, by simp, fun x _ => rfl, rfl, rfl⟩
  | cons b rest ih =>
      intro i d hd hvals
      have hv0 : d.cache (start + i + 1) = f b := hvals 0 (by simp)
      have hrest : ∀ b' ∈ rest, ∀ j, j < (i + 1) + rest.length
          → b' ≠ start + j + 1 := by
        intro b' hb' j hj
        exact hd b' (List.mem_cons_of_mem _ hb') j
          (by simp only [List.length_cons]; omega)
      have hvals1 : ∀ j (hj : j < rest.length),
          (diskWriteBlk d b (d.cache (start + i + 1))).cache
              (start + (i + 1) + j + 1) = f (rest.get ⟨j, hj⟩) := by
        intro j hj
        have hbne : b ≠ start + (i + 1) + j + 1 := by
          have := hd b (List.mem_cons_self _ _) (i + 1 + j)
            (by simp only [List.length_cons]; omega)
          omega
        simp only [diskWriteBlk]
        rw [if_neg (fun h => hbne h.symm)]
        have harith : start + (i + 1) + j + 1 = start + i + (j + 1) + 1 := by
          omega
        rw [harith]
        exact hvals (j + 1) (by simpa using hj)
      obtain ⟨htr, hin, hout, hN, hB⟩ :=
        ih (i + 1) (diskWriteBlk d b (d.cache (start + i + 1))) hrest hvals1
      refine ⟨?_, ?_, ?_, hN, hB⟩
      · show DWrite.blk b (d.cache (start + i + 1))
            :: (installTransAux start (i + 1) rest
                (diskWriteBlk d b (d.cache (start + i + 1)))).2 = _
        rw [htr, List.enumFrom_cons, hv0]
        simp only [List.map_cons]
      · intro b' hb'
        show (installTransAux start (i + 1) rest
            (diskWriteBlk d b (d.cache (start + i + 1)))).1.disk b' = f b'
        rcases List.mem_cons.mp hb' with rfl | hb'mem
        · by_cases hbr : b' ∈ rest
          · exact hin b' hbr
          · rw [hout b' hbr]
            simp [diskWriteBlk, hv0]
        · exact hin b' hb'mem
      · intro x hx
        have hxb : x ≠ b := fun h => hx (h ▸ List.mem_cons_self _ _)
        have hxrest : x ∉ rest := fun h => hx (List.mem_cons_of_mem _ h)
        show (installTransAux start (i + 1) rest
            (diskWriteBlk d b (d.cache (start + i + 1)))).1.disk x = d.disk x
        rw [hout x hxrest]
        simp only [diskWriteBlk]
        exact if_neg hxb

end Rv6

namespace Rv6

/-! ## Claim theorems: the log's admission and counters -/

/-- **C2.** `begin_op` returns only from a state where `committing` is
false and `bufs.len() + (outstanding+1)*MAXOPBLOCKS ≤ LOGSIZE`, its sole
effect is `outstanding += 1`, and every state observed before that one
failed the guard (the caller slept and retried). -/
theorem beginOp_loop_spec (states : List LogInner) (s' : LogInner)
    (h : beginOpLoop states = some s') :
    ∃ pre s rest, states = pre ++ s :: rest ∧
      (∀ t ∈ pre, beginOpBlocked t = true) ∧
      s.committing = false ∧
      (s.bufs.length : Int) + (s.outstanding + 1) * (MAXOPBLOCKS : Int)
        ≤ (LOGSIZE : Int) ∧
      s' = { s with outstanding := s.outstanding + 1 } := by
  induction states with
  | nil => simp [beginOpLoop] at h
  | cons t ts ih =>
      unfold beginOpLoop at h
      cases hstep : beginOpStep t with
      | some u =>
          rw [hstep] at h
          simp only [Option.some.injEq] at h
          subst h
          unfold beginOpStep at hstep
          split at hstep
          · exact absurd hstep (by simp)
          · rename_i hguard
            simp only [Bool.not_eq_true] at hguard
            unfold beginOpBlocked at hguard
            simp only [Bool.or_eq_false_iff, decide_eq_false_iff_not,
              not_lt] at hguard
            refine ⟨[], t, ts, by simp, by simp, hguard.1, hguard.2, ?_⟩
            simp only [Option.some.injEq] at hstep
            exact hstep.symm
      | none =>
          rw [hstep] at h
          obtain ⟨pre, s, rest, heq, hpre, h1, h2, h3⟩ := ih h
          refine ⟨t :: pre, s, rest, by simp [heq], ?_, h1, h2, h3⟩
          intro u hu
          rcases List.mem_cons.mp hu with rfl | hu
          · unfold beginOpStep at hstep
            split at hstep
            · rename_i hb; exact hb
            · exact absurd hstep (by simp)
          · exact hpre u hu

/-- Witness for C2: a run of `begin_op` that sleeps once (the log is
committing) and is admitted at the second observed state. -/
theorem beginOp_loop_spec_witness :
    ∃ pre s rest,
      [{ logInit 0 30 with committing := true }, logInit 0 30]
        = pre ++ s :: rest ∧
      (∀ t ∈ pre, beginOpBlocked t = true) ∧
      s.committing = false ∧
      (s.bufs.length : Int) + (s.outstanding + 1) * (MAXOPBLOCKS : Int)
        ≤ (LOGSIZE : Int) ∧
      { logInit 0 30 with outstanding := 1 }
        = { s with outstanding := s.outstanding + 1 } :=
  beginOp_loop_spec
    [{ logInit 0 30 with committing := true }, logInit 0 30]
    { logInit 0 30 with outstanding := 1 }
    (by decide)

/-- **C3.** Every state reachable from the initial log state by
`begin_op`/`end_op` steps has `outstanding ≥ 0`, and never both
`committing = true` and `outstanding > 0`. -/
theorem logReach_inv (start size : Nat) (s : LogInner)
    (h : LogReach (logInit start size) s) :
    0 ≤ s.outstanding ∧ ¬(s.committing = true ∧ 0 < s.outstanding) := by
  have hinv : logInv s := by
    induction h with
    | refl => exact logInv_init start size
    | tail _ hstep ih => exact logInv_step ih hstep
  obtain ⟨h1, h2⟩ := hinv
  refine ⟨h1, ?_⟩
  rintro ⟨hc, hpos⟩
  rw [h2 hc] at hpos
  exact lt_irrefl 0 hpos

/-- Witness for C3: the invariant holds at the initial state itself. -/
theorem logReach_inv_witness :
    0 ≤ (logInit 0 30).outstanding ∧
      ¬((logInit 0 30).committing = true ∧ 0 < (logInit 0 30).outstanding) :=
  logReach_inv 0 30 (logInit 0 30) Relation.ReflTransGen.refl

/-- **C5.** `Log::write` keeps the recorded block numbers pairwise
distinct: when the asserts pass, a block number already in `bufs` is
absorbed (the queue is unchanged) and a new one is appended, so `Nodup`
is preserved. -/
theorem logWrite_nodup (s : LogInner) (b : Nat) (s' : LogInner)
    (h : logWrite s b = some s') (hnd : s.bufs.Nodup) :
    s'.bufs.Nodup ∧
      (b ∈ s.bufs → s'.bufs = s.bufs) ∧
      (b ∉ s.bufs → s'.bufs = s.bufs ++ [b]) := by
  unfold logWrite at h
  split at h
  · exact absurd h (by simp)
  split at h
  · exact absurd h (by simp)
  split at h
  · rename_i hall
    simp only [List.all_eq_true, decide_eq_true_eq] at hall
    simp only [Option.some.injEq] at h
    subst h
    have hnotmem : b ∉ s.bufs := fun hmem => hall b hmem rfl
    refine ⟨?_, fun hmem => absurd hmem hnotmem, fun _ => rfl⟩
    rw [List.nodup_append]
    refine ⟨hnd, by simp, ?_⟩
    intro a ha hmem
    have ha' : a = b := by simpa using hmem
    exact hnotmem (ha' ▸ ha)
  · rename_i hall
    simp only [List.all_eq_true, decide_eq_true_eq, not_forall] at hall
    simp only [Option.some.injEq] at h
    subst h
    obtain ⟨a, ha, hab⟩ := hall
    have hmem : b ∈ s.bufs := by
      have : a = b := by simpa using hab
      exact this ▸ ha
    exact ⟨hnd, fun _ => rfl, fun hn => absurd hmem hn⟩

/-- Witness for C5: recording block 7 twice in one transaction keeps
`bufs = [7]`. -/
theorem logWrite_nodup_witness :
    ({ logInit 0 30 with outstanding := 1, bufs := [7] } : LogInner).bufs.Nodup
      ∧ (7 ∈ ({ logInit 0 30 with outstanding := 1, bufs := [7] } : LogInner).bufs
          → ({ logInit 0 30 with outstanding := 1, bufs := [7] } : LogInner).bufs
            = [7])
      ∧ (7 ∉ ({ logInit 0 30 with outstanding := 1, bufs := [7] } : LogInner).bufs
          → ({ logInit 0 30 with outstanding := 1, bufs := [7] } : LogInner).bufs
            = [7] ++ [7]) := by
  have := logWrite_nodup
    { logInit 0 30 with outstanding := 1, bufs := [7] } 7
    { logInit 0 30 with outstanding := 1, bufs := [7] }
    (by decide) (by decide)
  simp only [logInit] at this ⊢
  exact this

/-- **C8.** Every completed `end_op` broadcasts on the log's condition
variable as its last action, in particular also when the decremented
`outstanding` is still positive and no commit runs. -/
theorem endOp_wakes (s s' : LogInner) (evs : List LogEv)
    (h : endOp s = some (s', evs)) :
    LogEv.wakeup ∈ evs ∧ evs.getLast? = some LogEv.wakeup ∧
      (0 < s.outstanding - 1 → evs = [LogEv.wakeup]) := by
  unfold endOp at h
  split at h
  · exact absurd h (by simp)
  split at h
  · rename_i hz
    simp only [Option.some.injEq, Prod.mk.injEq] at h
    obtain ⟨-, rfl⟩ := h
    exact ⟨by simp, by simp [List.getLast?], fun hpos => absurd hz (by omega)⟩
  · simp only [Option.some.injEq, Prod.mk.injEq] at h
    obtain ⟨-, rfl⟩ := h
    exact ⟨by simp, by simp [List.getLast?], fun _ => rfl⟩

/-- Witness for C8: `end_op` from `outstanding = 2` emits only the
`wakeup`, with no commit. -/
theorem endOp_wakes_witness :
    LogEv.wakeup ∈ [LogEv.wakeup] ∧
      [LogEv.wakeup].getLast? = some LogEv.wakeup ∧
      (0 < ({ logInit 0 30 with outstanding := 2 } : LogInner).outstanding - 1
        → [LogEv.wakeup] = [LogEv.wakeup]) :=
  endOp_wakes { logInit 0 30 with outstanding := 2 }
    { logInit 0 30 with outstanding := 1 } [LogEv.wakeup] (by decide)

/-! ## Claim theorems: commit and recovery -/

/-- **C1.** `commit` with an empty `bufs` performs no disk writes and
changes nothing; otherwise it emits, in order, one log-block write per
recorded buffer carrying that home block's cached bytes, the header write
with `n = bufs.len()` and `block[i] = bufs[i].blockno` (the commit
point), one home-block write per recorded buffer, and a final header
write with `n = 0`; `bufs` is empty when `commit` returns.  The
hypothesis states that no recorded home block is one of the used log
blocks (they lie in disjoint disk regions). -/
theorem commit_spec (s : LogInner) (d : DiskSt)
    (hdisj : ∀ b ∈ s.bufs, ∀ j, j < s.bufs.length → b ≠ s.start + j + 1) :
    ((commit s d).1.bufs = []) ∧
    (s.bufs = [] → commit s d = (s, d, [])) ∧
    (s.bufs ≠ [] →
      (commit s d).2.2
        = (s.bufs.enumFrom 0).map
            (fun p => DWrite.blk (s.start + p.1 + 1) (d.cache p.2))
          ++ [DWrite.head s.bufs.length s.bufs]
          ++ (s.bufs.enumFrom 0).map (fun p => DWrite.blk p.2 (d.cache p.2))
          ++ [DWrite.head 0 []]
        ∧ (commit s d).2.1.hdrN = 0
        ∧ (∀ b ∈ s.bufs, (commit s d).2.1.disk b = d.cache b)) := by
  by_cases hb : s.bufs = []
  · have hempty : commit s d = (s, d, []) := by
      rw [commit, if_pos (by simp [hb])]
    exact ⟨by rw [hempty]; exact hb, fun _ => hempty, fun hne => absurd hb hne⟩
  · have hd0 : ∀ b ∈ s.bufs, ∀ j, j < 0 + s.bufs.length
        → b ≠ s.start + j + 1 := by
      intro b hb' j hj
      exact hdisj b hb' j (by omega)
    obtain ⟨htr1, hN1, hB1, hpos1, hpres1⟩ :=
      writeLogAux_spec s.start s.bufs 0 d hd0
    have hvals : ∀ j (hj : j < s.bufs.length),
        (writeHead s (writeLogAux s.start 0 s.bufs d).1).1.cache
            (s.start + 0 + j + 1)
          = d.cache (s.bufs.get ⟨j, hj⟩) := by
      intro j hj
      exact hpos1 j hj
    obtain ⟨htr3, hin3, hout3, hN3, hB3⟩ :=
      installTransAux_spec s.start d.cache s.bufs 0
        (writeHead s (writeLogAux s.start 0 s.bufs d).1).1 hd0 hvals
    have hcne : commit s d =
        ({ s with bufs := [] },
         (writeHead { s with bufs := [] }
            (installTransAux s.start 0 s.bufs
              (writeHead s (writeLogAux s.start 0 s.bufs d).1).1).1).1,
         (writeLogAux s.start 0 s.bufs d).2
           ++ (writeHead s (writeLogAux s.start 0 s.bufs d).1).2
           ++ (installTransAux s.start 0 s.bufs
                (writeHead s (writeLogAux s.start 0 s.bufs d).1).1).2
           ++ (writeHead { s with bufs := [] }
                (installTransAux s.start 0 s.bufs
                  (writeHead s (writeLogAux s.start 0 s.bufs d).1).1).1).2) := by
      rw [commit, if_neg (by simp [hb])]
      rfl
    refine ⟨by rw [hcne], fun h => absurd h hb, fun _ => ⟨?_, ?_, ?_⟩⟩
    · rw [hcne]
      show (writeLogAux s.start 0 s.bufs d).2
          ++ [DWrite.head s.bufs.length
                ((List.range s.bufs.length).map fun i =>
                  s.bufs.getD i ((writeLogAux s.start 0 s.bufs d).1.hdrB i))]
          ++ (installTransAux s.start 0 s.bufs
                (writeHead s (writeLogAux s.start 0 s.bufs d).1).1).2
          ++ [DWrite.head 0 []] = _
      rw [htr1, htr3, range_map_getD]
    · rw [hcne]
      rfl
    · intro b hbmem
      rw [hcne]
      show (installTransAux s.start 0 s.bufs
          (writeHead s (writeLogAux s.start 0 s.bufs d).1).1).1.disk b
        = d.cache b
      exact hin3 b hbmem

/-- Witness for C1: committing the one-block transaction `bufs = [20]`
from log start 2. -/
theorem commit_spec_witness :
    ((commit ⟨2, 10, 0, true, [20]⟩ ⟨5, fun _ => 0, fun _ => 0, fun x => x⟩).1.bufs
        = []) ∧
    (([20] : List Nat) = [] →
      commit ⟨2, 10, 0, true, [20]⟩ ⟨5, fun _ => 0, fun _ => 0, fun x => x⟩
        = (⟨2, 10, 0, true, [20]⟩, ⟨5, fun _ => 0, fun _ => 0, fun x => x⟩, [])) ∧
    (([20] : List Nat) ≠ [] →
      (commit ⟨2, 10, 0, true, [20]⟩ ⟨5, fun _ => 0, fun _ => 0, fun x => x⟩).2.2
        = (([20] : List Nat).enumFrom 0).map
            (fun p => DWrite.blk (2 + p.1 + 1) p.2)
          ++ [DWrite.head ([20] : List Nat).length [20]]
          ++ (([20] : List Nat).enumFrom 0).map (fun p => DWrite.blk p.2 p.2)
          ++ [DWrite.head 0 []]
        ∧ (commit ⟨2, 10, 0, true, [20]⟩
            ⟨5, fun _ => 0, fun _ => 0, fun x => x⟩).2.1.hdrN = 0
        ∧ (∀ b ∈ ([20] : List Nat),
            (commit ⟨2, 10, 0, true, [20]⟩
              ⟨5, fun _ => 0, fun _ => 0, fun x => x⟩).2.1.disk b = b)) :=
  commit_spec ⟨2, 10, 0, true, [20]⟩ ⟨5, fun _ => 0, fun _ => 0, fun x => x⟩
    (by decide)

/-- **C4.** `recover_from_log` is idempotent: a second run on the disk
state left by a first run changes nothing (the first run leaves the
on-disk header with `n = 0`, so the second installs nothing and merely
rewrites `n = 0`). -/
theorem recoverFromLog_idem (start size : Nat) (d : DiskSt) :
    (recoverFromLog (logInit start size)
        (recoverFromLog (logInit start size) d).2.1).2.1
      = (recoverFromLog (logInit start size) d).2.1
    ∧ (recoverFromLog (logInit start size) d).2.1.hdrN = 0
    ∧ (recoverFromLog (logInit start size)
        (recoverFromLog (logInit start size) d).2.1).2.2
      = [DWrite.head 0 []] := by
  refine ⟨?_, rfl, rfl⟩
  apply DiskSt.ext
  · rfl
  · funext i
    show List.getD [] i
        ((recoverFromLog (logInit start size) d).2.1.hdrB i)
      = (recoverFromLog (logInit start size) d).2.1.hdrB i
    simp [List.getD]
  · rfl
  · rfl

end Rv6

namespace Rv6

/-! ## File::write on a regular file (file.rs lines 200-247)

The `FileType::Inode` arm writes `n` bytes in chunks of at most
`max = (MAXOPBLOCKS - 1 - 1 - 2) / 2 * BSIZE` bytes
(`for bytes_written in (0..n).step_by(max)`), each chunk bracketed by
`fs().begin_op()` / `fs().end_op()`.  A chunk's inner `InodeGuard::write`
is modelled by an oracle `w (start, len) : Except Unit Nat` giving the
bytes written or an error; `bytes_written?` propagates an error and
`assert!(bytes_written? == bytes_to_write, "short File::write")` panics
on a short write, both after `end_op`.  After the loop the call returns
`Ok(n)`. -/

def maxChunk : Nat := (MAXOPBLOCKS - 1 - 1 - 2) / 2 * BSIZE

/-- The chunk start offsets `(0..n).step_by(max)`. -/
def chunkStarts (n max : Nat) : List Nat :=
  (List.range ((n + max - 1) / max)).map (· * max)

inductive FEv where
  | beginOp
  | inodeWrite (start : Nat) (len : Nat)
  | endOp
  deriving Repr, DecidableEq

inductive FRes where
  | ok (r : Nat)
  | err
  | panic
  deriving Repr, DecidableEq

def fileWriteLoop (w : Nat → Nat → Except Unit Nat) (n max : Nat) :
    List Nat → List FEv × FRes
  | [] => ([], FRes.ok n)
  | start :: rest =>
    let len := min (n - start) max
    match w start len with
    | Except.error _ =>
        ([FEv.beginOp, FEv.inodeWrite start len, FEv.endOp], FRes.err)
    | Except.ok v =>
        if v = len then
          let r := fileWriteLoop w n max rest
          (FEv.beginOp :: FEv.inodeWrite start len :: FEv.endOp :: r.1, r.2)
        else
          ([FEv.beginOp, FEv.inodeWrite start len, FEv.endOp], FRes.panic)

def fileWriteInode (w : Nat → Nat → Except Unit Nat) (n : Nat) :
    List FEv × FRes :=
  fileWriteLoop w n maxChunk (chunkStarts n maxChunk)

/-- The shape "every chunk is wrapped in its own transaction": the event
trace is a sequence of `begin_op; write; end_op` triples. -/
inductive Chunked : List FEv → Prop
  | nil : Chunked []
  | cons (s l : Nat) (t : List FEv) : Chunked t →
      Chunked (FEv.beginOp :: FEv.inodeWrite s l :: FEv.endOp :: t)

theorem fileWriteLoop_spec (w : Nat → Nat → Except Unit Nat) (n max : Nat)
    (starts : List Nat) :
    (∀ s l, FEv.inodeWrite s l ∈ (fileWriteLoop w n max starts).1 →
        s ∈ starts ∧ l = min (n - s) max)
    ∧ Chunked (fileWriteLoop w n max starts).1
    ∧ (∀ r, (fileWriteLoop w n max starts).2 = FRes.ok r → r = n)
    ∧ ((∃ s l v, FEv.inodeWrite s l ∈ (fileWriteLoop w n max starts).1
          ∧ w s l = Except.ok v ∧ v ≠ l)
        → (fileWriteLoop w n max starts).2 = FRes.panic) := by
  induction starts with
  | nil =>
      refine ⟨?_, Chunked.nil, ?_, ?_⟩
      · intro s l hmem; exact absurd hmem (by simp [fileWriteLoop])
      · intro r hr
        simp only [fileWriteLoop, FRes.ok.injEq] at hr
        exact hr.symm
      · rintro ⟨s, l, v, hmem, -⟩
        exact absurd hmem (by simp [fileWriteLoop])
  | cons start rest ih =>
      obtain ⟨ihmem, ihch, ihok, ihpan⟩ := ih
      cases hw : w start (min (n - start) max) with
      | error e =>
          have hval : fileWriteLoop w n max (start :: rest)
              = ([FEv.beginOp, FEv.inodeWrite start (min (n - start) max),
                  FEv.endOp], FRes.err) := by
            simp only [fileWriteLoop]
            rw [hw]
          refine ⟨?_, ?_, ?_, ?_⟩
          · intro s l hmem
            rw [hval] at hmem
            simp only [List.mem_cons, List.not_mem_nil, or_false] at hmem
            rcases hmem with h | h | h
            · exact absurd h (by simp)
            · obtain ⟨rfl, rfl⟩ := FEv.inodeWrite.inj h
              exact ⟨List.mem_cons_self _ _, rfl⟩
            · exact absurd h (by simp)
          · rw [hval]
            exact Chunked.cons _ _ _ Chunked.nil
          · intro r hr
            rw [hval] at hr
            exact absurd hr (by simp)
          · rintro ⟨s, l, v, hmem, hws, hvl⟩
            rw [hval] at hmem
            simp only [List.mem_cons, List.not_mem_nil, or_false] at hmem
            rcases hmem with h | h | h
            · exact absurd h (by simp)
            · obtain ⟨rfl, rfl⟩ := FEv.inodeWrite.inj h
              rw [hws] at hw
              exact absurd hw (by simp)
            · exact absurd h (by simp)
      | ok v =>
          by_cases hv : v = min (n - start) max
          · have hval : fileWriteLoop w n max (start :: rest)
                = (FEv.beginOp
                    :: FEv.inodeWrite start (min (n - start) max)
                    :: FEv.endOp :: (fileWriteLoop w n max rest).1,
                   (fileWriteLoop w n max rest).2) := by
              simp only [fileWriteLoop]
              rw [hw]
              simp [hv]
            refine ⟨?_, ?_, ?_, ?_⟩
            · intro s l hmem
              rw [hval] at hmem
              simp only [List.mem_cons] at hmem
              rcases hmem with h | h | h | h
              · exact absurd h (by simp)
              · obtain ⟨rfl, rfl⟩ := FEv.inodeWrite.inj h
                exact ⟨List.mem_cons_self _ _, rfl⟩
              · exact absurd h (by simp)
              · obtain ⟨hs, hl⟩ := ihmem s l h
                exact ⟨List.mem_cons_of_mem _ hs, hl⟩
            · rw [hval]
              exact Chunked.cons _ _ _ ihch
            · intro r hr
              rw [hval] at hr
              exact ihok r hr
            · rintro ⟨s, l, v', hmem, hws, hvl⟩
              rw [hval] at hmem
              simp only [List.mem_cons] at hmem
              rw [hval]
              show (fileWriteLoop w n max rest).2 = FRes.panic
              rcases hmem with h | h | h | h
              · exact absurd h (by simp)
              · obtain ⟨rfl, rfl⟩ := FEv.inodeWrite.inj h
                rw [hws] at hw
                obtain rfl := (Except.ok.inj hw).symm
                exact absurd hv hvl
              · exact absurd h (by simp)
              · exact ihpan ⟨s, l, v', h, hws, hvl⟩
          · have hval : fileWriteLoop w n max (start :: rest)
                = ([FEv.beginOp, FEv.inodeWrite start (min (n - start) max),
                    FEv.endOp], FRes.panic) := by
              simp only [fileWriteLoop]
              rw [hw]
              simp [hv]
            refine ⟨?_, ?_, ?_, ?_⟩
            · intro s l hmem
              rw [hval] at hmem
              simp only [List.mem_cons, List.not_mem_nil, or_false] at hmem
              rcases hmem with h | h | h
              · exact absurd h (by simp)
              · obtain ⟨rfl, rfl⟩ := FEv.inodeWrite.inj h
                exact ⟨List.mem_cons_self _ _, rfl⟩
              · exact absurd h (by simp)
            · rw [hval]
              exact Chunked.cons _ _ _ Chunked.nil
            · intro r hr
              rw [hval] at hr
              exact absurd hr (by simp)
            · intro _
              rw [hval]

/-- **C6.** `File::write` of `n` bytes to a regular file is split into
chunks of at most `((MAXOPBLOCKS - 4) / 2) * BSIZE` bytes, each chunk
bracketed by its own `begin_op`/`end_op`; a short chunk write panics
("short File::write"); a successful call returns exactly `Ok(n)`. -/
theorem fileWrite_chunks (w : Nat → Nat → Except Unit Nat) (n : Nat) :
    (∀ s l, FEv.inodeWrite s l ∈ (fileWriteInode w n).1 →
        l ≤ (MAXOPBLOCKS - 4) / 2 * BSIZE)
    ∧ Chunked (fileWriteInode w n).1
    ∧ (∀ r, (fileWriteInode w n).2 = FRes.ok r → r = n)
    ∧ ((∃ s l v, FEv.inodeWrite s l ∈ (fileWriteInode w n).1
          ∧ w s l = Except.ok v ∧ v ≠ l)
        → (fileWriteInode w n).2 = FRes.panic) := by
  obtain ⟨hmem, hch, hok, hpan⟩ :=
    fileWriteLoop_spec w n maxChunk (chunkStarts n maxChunk)
  refine ⟨?_, hch, hok, hpan⟩
  intro s l hin
  obtain ⟨-, hl⟩ := hmem s l hin
  have hmax : maxChunk = (MAXOPBLOCKS - 4) / 2 * BSIZE := by
    simp [maxChunk, MAXOPBLOCKS]
  rw [hl, ← hmax]
  exact min_le_right _ _

/-- Witness for C6: a 5000-byte write served fully by the inode layer is
two transactions (3072 + 1928 bytes) and returns `Ok 5000`. -/
theorem fileWrite_chunks_witness :
    (∀ s l,
        FEv.inodeWrite s l ∈ (fileWriteInode (fun _ l => Except.ok l) 5000).1 →
        l ≤ (MAXOPBLOCKS - 4) / 2 * BSIZE)
    ∧ Chunked (fileWriteInode (fun _ l => Except.ok l) 5000).1
    ∧ (∀ r, (fileWriteInode (fun _ l => Except.ok l) 5000).2 = FRes.ok r
        → r = 5000)
    ∧ ((∃ s l v,
          FEv.inodeWrite s l ∈ (fileWriteInode (fun _ l => Except.ok l) 5000).1
          ∧ (fun _ l => Except.ok l : Nat → Nat → Except Unit Nat) s l
              = Except.ok v
          ∧ v ≠ l)
        → (fileWriteInode (fun _ l => Except.ok l) 5000).2 = FRes.panic) :=
  fileWrite_chunks (fun _ l => Except.ok l) 5000

end Rv6

namespace Rv6

/-! ## File-system system calls (sysfile.rs)

The directory layer (`dirlookup`, `isdirempty`, `dirlink` in
fs/inode.rs) and path resolution (`namei`/`nameiparent` in fs/path.rs)
are not part of the sources; they are modelled from the specification,
and resolution results are oracle parameters.  The inode state relevant
to the claims is its type, device, major number, link count, and (for
directories) its list of entries.  `mem` is the in-memory inode table;
`dsk` holds the persisted dinode copies, and `InodeGuard::update`
serializes `mem` into `dsk`.  Directory-content writes go through the
active transaction, so they are applied to both views. -/

/-- Modelled from the spec: inode type constants from stat.rs (not under
the sources); only their distinctness is used. -/
def T_DIR : Nat := 1

def T_FILE : Nat := 2

def T_DEVICE : Nat := 3

structure Dirent where
  inum : Nat
  name : String
  deriving Repr, DecidableEq

structure MInode where
  typ : Nat
  major : Nat
  dev : Nat
  nlink : Int
  entries : List Dirent
  deriving Repr, DecidableEq

structure FsSt where
  mem : Nat → MInode
  dsk : Nat → MInode

/-- Mutate the in-memory inode `i`. -/
def imod (st : FsSt) (i : Nat) (f : MInode → MInode) : FsSt :=
  { st with mem := fun x => if x = i then f (st.mem x) else st.mem x }

/-- `InodeGuard::update`: persist the in-memory inode `i` to its dinode
slot (through the log). -/
def iupdate (st : FsSt) (i : Nat) : FsSt :=
  { st with dsk := fun x => if x = i then st.mem i else st.dsk x }

/-- A directory-content write through the transaction: both views see the
new entry list. -/
def isetEntries (st : FsSt) (i : Nat) (es : List Dirent) : FsSt :=
  { mem := fun x => if x = i then { st.mem x with entries := es } else st.mem x,
    dsk := fun x => if x = i then { st.dsk x with entries := es } else st.dsk x }

def dirlookupAux : Nat → List Dirent → String → Option (Nat × Nat)
  | _, [], _ => none
  | off, e :: rest, name =>
    if e.inum ≠ 0 ∧ e.name = name then some (e.inum, off)
    else dirlookupAux (off + 1) rest name

/-- Modelled from the spec: `dirlookup` (fs/inode.rs, not under the
sources) — linear scan, skipping slots with `inum == 0`, matching by
exact name equality; returns the entry's inode number and its offset
(here: index) in the directory. -/
def dirlookup (es : List Dirent) (name : String) : Option (Nat × Nat) :=
  dirlookupAux 0 es name

/-- Modelled from the spec: `isdirempty` (fs/inode.rs, not under the
sources) — true iff every entry other than `.` and `..` has
`inum == 0`. -/
def isdirempty (es : List Dirent) : Bool :=
  es.all fun e => decide (e.name = "." ∨ e.name = ".." ∨ e.inum = 0)

def firstFreeSlot : Nat → List Dirent → Option Nat
  | _, [] => none
  | i, e :: rest => if e.inum = 0 then some i else firstFreeSlot (i + 1) rest

/-- Modelled from the spec: `dirlink` (fs/inode.rs, not under the
sources) — fails if `name` already exists, otherwise writes the entry
into the first free slot, extending the directory if needed. -/
def dirlink (es : List Dirent) (name : String) (inum : Nat) :
    Option (List Dirent) :=
  if (dirlookup es name).isSome then none
  else
    match firstFreeSlot 0 es with
    | some i => some (es.set i ⟨inum, name⟩)
    | none => some (es ++ [⟨inum, name⟩])

inductive SysRes where
  | ok (v : Nat)
  | panic
  deriving Repr, DecidableEq

/-- The zeroed `Dirent` (`Default::default()`) that `sys_unlink` writes
over the victim's slot. -/
def zeroDirent : Dirent := ⟨0, ""⟩

/-- `sys_unlink` (sysfile.rs lines 127-171) after `nameiparent`
resolved the parent directory `dpi` and the final component `name`
(resolution is in fs/path.rs, not under the sources).  Refusing `.` and
`..`, looking the name up, panicking on `nlink < 1`, unlinking only a
non-directory or an empty directory: overwrite the directory entry with
a zeroed `Dirent`, decrement the parent's `nlink` for a directory's
`..`, then decrement and persist the victim's `nlink`.  The
`begin_op`/`end_op` bracket is modelled separately with the log. -/
def sys_unlink (st : FsSt) (dpi : Nat) (name : String) : FsSt × SysRes :=
  if name = "." ∨ name = ".." then (st, SysRes.ok usizeMAX)
  else
    match dirlookup (st.mem dpi).entries name with
    | none => (st, SysRes.ok usizeMAX)
    | some (ipi, off) =>
      if (st.mem ipi).nlink < 1 then (st, SysRes.panic)
      else if (st.mem ipi).typ ≠ T_DIR ∨ isdirempty (st.mem ipi).entries then
        let st1 := isetEntries st dpi ((st.mem dpi).entries.set off zeroDirent)
        let st2 :=
          if (st.mem ipi).typ = T_DIR then
            iupdate (imod st1 dpi fun dp => { dp with nlink := dp.nlink - 1 }) dpi
          else st1
        let st3 :=
          iupdate (imod st2 ipi fun ip => { ip with nlink := ip.nlink - 1 }) ipi
        (st3, SysRes.ok 0)
      else (st, SysRes.ok usizeMAX)

/-- `sys_link` (sysfile.rs lines 88-125) after `namei(old)` resolved to
`oldRes` and `nameiparent(new)` to `newRes`: refuse a directory,
increment and persist the target's `nlink`, then try to create the new
directory entry; on any failure (unresolvable new parent, device
mismatch, `dirlink` error) re-lock the target, decrement `nlink` back,
persist it, and return `usize::MAX`. -/
def sys_link (st : FsSt) (oldRes : Option Nat) (newRes : Option (Nat × String)) :
    FsSt × SysRes :=
  match oldRes with
  | none => (st, SysRes.ok usizeMAX)
  | some ipi =>
    if (st.mem ipi).typ = T_DIR then (st, SysRes.ok usizeMAX)
    else
      let st1 := iupdate (imod st ipi fun ip => { ip with nlink := ip.nlink + 1 }) ipi
      let fail :=
        (iupdate (imod st1 ipi fun ip => { ip with nlink := ip.nlink - 1 }) ipi,
         SysRes.ok usizeMAX)
      match newRes with
      | none => fail
      | some (dpi, name) =>
        if (st1.mem dpi).dev ≠ (st1.mem ipi).dev then fail
        else
          match dirlink (st1.mem dpi).entries name ipi with
          | none => fail
          | some es => (isetEntries st1 dpi es, SysRes.ok 0)

/-- The new-path half of `sys_link` fails: the parent did not resolve,
lies on another device, or `dirlink` errs (evaluated, as in the source,
after the target's `nlink` was already incremented). -/
def linkAttemptFails (st1 : FsSt) (ipi : Nat) : Option (Nat × String) → Prop
  | none => True
  | some (dpi, name) =>
      (st1.mem dpi).dev ≠ (st1.mem ipi).dev
      ∨ dirlink (st1.mem dpi).entries name ipi = none

/-! ### sys_open (sysfile.rs lines 209-274)

For C10 only the part after the inode is obtained (via `create` or
`namei`, fs/path.rs being outside the sources) matters; the obtained
inode is a parameter.  Observable actions are traced: the transaction
bracket, releasing the inode, allocating a file object (`RcFile::alloc`)
and installing it in the descriptor table (`fdalloc`). -/

inductive OEv where
  | beginOp
  | inodeRelease
  | fileAlloc
  | fdInstall (fd : Nat)
  | endOp
  deriving Repr, DecidableEq

/-- `sys_open` from the point where the inode guard `ip` is held:
the device-major guard, file allocation (`allocOk` = a free file-table
slot existed), and descriptor installation (`fdRes` = the allocated
descriptor, if any). -/
def sys_open_resolved (ip : MInode) (allocOk : Bool) (fdRes : Option Nat) :
    List OEv × Nat :=
  if ip.typ = T_DEVICE ∧ NDEV ≤ ip.major then
    ([OEv.beginOp, OEv.inodeRelease, OEv.endOp], usizeMAX)
  else if allocOk = false then
    ([OEv.beginOp, OEv.inodeRelease, OEv.endOp], usizeMAX)
  else
    match fdRes with
    | none => ([OEv.beginOp, OEv.fileAlloc, OEv.inodeRelease, OEv.endOp], usizeMAX)
    | some fd => ([OEv.beginOp, OEv.fileAlloc, OEv.fdInstall fd, OEv.endOp], fd)

/-! ### Claim theorems: system calls -/

/-- **C7.** `sys_unlink` on a name that resolves to a non-empty directory
(an entry other than `.`/`..` has `inum ≠ 0`) returns `usize::MAX` and
leaves the whole file-system state unchanged: no directory entry is
overwritten, no `nlink` decremented. -/
theorem sys_unlink_nonempty_dir (st : FsSt) (dpi : Nat) (name : String)
    (ipi off : Nat)
    (hname : ¬(name = "." ∨ name = ".."))
    (hlook : dirlookup (st.mem dpi).entries name = some (ipi, off))
    (hnl : ¬((st.mem ipi).nlink < 1))
    (htyp : (st.mem ipi).typ = T_DIR)
    (hne : isdirempty (st.mem ipi).entries = false) :
    sys_unlink st dpi name = (st, SysRes.ok usizeMAX) := by
  unfold sys_unlink
  rw [if_neg hname, hlook]
  simp only
  rw [if_neg hnl, if_neg (by simp [htyp, hne])]

/-- Witness for C7: unlinking `/d` while `/d` holds the live entry `f`
fails and changes nothing. -/
theorem sys_unlink_nonempty_dir_witness :
    sys_unlink
      ⟨fun i =>
          if i = 1 then ⟨T_DIR, 0, 0, 1, [⟨1, "."⟩, ⟨1, ".."⟩, ⟨2, "d"⟩]⟩
          else if i = 2 then ⟨T_DIR, 0, 0, 2, [⟨2, "."⟩, ⟨1, ".."⟩, ⟨3, "f"⟩]⟩
          else ⟨0, 0, 0, 0, []⟩,
       fun _ => ⟨0, 0, 0, 0, []⟩⟩
      1 "d"
      = (⟨fun i =>
            if i = 1 then ⟨T_DIR, 0, 0, 1, [⟨1, "."⟩, ⟨1, ".."⟩, ⟨2, "d"⟩]⟩
            else if i = 2 then ⟨T_DIR, 0, 0, 2, [⟨2, "."⟩, ⟨1, ".."⟩, ⟨3, "f"⟩]⟩
            else ⟨0, 0, 0, 0, []⟩,
          fun _ => ⟨0, 0, 0, 0, []⟩⟩,
         SysRes.ok usizeMAX) :=
  sys_unlink_nonempty_dir _ 1 "d" 2 2
    (by decide) (by decide) (by decide) (by decide) (by decide)

/-- **C9.** A `sys_link` that fails after incrementing the target's
`nlink` (the new parent unresolvable, on another device, or `dirlink`
failing) decrements it back and persists it: the target's link count,
in memory and on disk, equals its pre-call value, and the call returns
`usize::MAX`. -/
theorem sys_link_failure_restores (st : FsSt) (ipi : Nat)
    (newRes : Option (Nat × String))
    (htyp : ¬((st.mem ipi).typ = T_DIR))
    (hfail : linkAttemptFails
      (iupdate (imod st ipi fun ip => { ip with nlink := ip.nlink + 1 }) ipi)
      ipi newRes) :
    ((sys_link st (some ipi) newRes).1.mem ipi).nlink = (st.mem ipi).nlink
    ∧ ((sys_link st (some ipi) newRes).1.dsk ipi).nlink = (st.mem ipi).nlink
    ∧ (sys_link st (some ipi) newRes).2 = SysRes.ok usizeMAX := by
  have hres : sys_link st (some ipi) newRes
      = (iupdate
          (imod (iupdate (imod st ipi fun ip => { ip with nlink := ip.nlink + 1 })
              ipi)
            ipi fun ip => { ip with nlink := ip.nlink - 1 })
          ipi,
         SysRes.ok usizeMAX) := by
    unfold sys_link
    simp only
    rw [if_neg htyp]
    match newRes with
    | none => rfl
    | some (dpi, name) =>
        simp only
        rcases hfail with hdev | hdl
        · rw [if_pos hdev]
        · by_cases hdev :
              ((iupdate (imod st ipi fun ip => { ip with nlink := ip.nlink + 1 })
                  ipi).mem dpi).dev
                ≠ ((iupdate
                    (imod st ipi fun ip => { ip with nlink := ip.nlink + 1 })
                    ipi).mem ipi).dev
          · rw [if_pos hdev]
          · rw [if_neg hdev, hdl]
  rw [hres]
  refine ⟨?_, ?_, rfl⟩ <;> simp [iupdate, imod]

/-- Witness for C9: linking inode 3 (a regular file) when `nameiparent`
on the new path fails leaves `nlink = 1` in memory and on disk. -/
theorem sys_link_failure_restores_witness :
    ((sys_link
        ⟨fun i => if i = 3 then ⟨T_FILE, 0, 0, 1, []⟩ else ⟨0, 0, 0, 0, []⟩,
         fun i => if i = 3 then ⟨T_FILE, 0, 0, 1, []⟩ else ⟨0, 0, 0, 0, []⟩⟩
        (some 3) none).1.mem 3).nlink
      = ((⟨fun i => if i = 3 then ⟨T_FILE, 0, 0, 1, []⟩ else ⟨0, 0, 0, 0, []⟩,
         fun i => if i = 3 then ⟨T_FILE, 0, 0, 1, []⟩ else ⟨0, 0, 0, 0, []⟩⟩ :
           FsSt).mem 3).nlink
    ∧ ((sys_link
        ⟨fun i => if i = 3 then ⟨T_FILE, 0, 0, 1, []⟩ else ⟨0, 0, 0, 0, []⟩,
         fun i => if i = 3 then ⟨T_FILE, 0, 0, 1, []⟩ else ⟨0, 0, 0, 0, []⟩⟩
        (some 3) none).1.dsk 3).nlink
      = ((⟨fun i => if i = 3 then ⟨T_FILE, 0, 0, 1, []⟩ else ⟨0, 0, 0, 0, []⟩,
         fun i => if i = 3 then ⟨T_FILE, 0, 0, 1, []⟩ else ⟨0, 0, 0, 0, []⟩⟩ :
           FsSt).mem 3).nlink
    ∧ (sys_link
        ⟨fun i => if i = 3 then ⟨T_FILE, 0, 0, 1, []⟩ else ⟨0, 0, 0, 0, []⟩,
         fun i => if i = 3 then ⟨T_FILE, 0, 0, 1, []⟩ else ⟨0, 0, 0, 0, []⟩⟩
        (some 3) none).2 = SysRes.ok usizeMAX :=
  sys_link_failure_restores _ 3 none (by decide) trivial

/-- **C10.** `sys_open` on a device inode whose major number is at least
`NDEV` returns `usize::MAX`, releasing the inode and ending the
transaction (in that order) before returning; no file object is
allocated and nothing is installed in the descriptor table. -/
theorem sys_open_bad_major (ip : MInode) (allocOk : Bool) (fdRes : Option Nat)
    (htyp : ip.typ = T_DEVICE) (hmaj : NDEV ≤ ip.major) :
    sys_open_resolved ip allocOk fdRes
      = ([OEv.beginOp, OEv.inodeRelease, OEv.endOp], usizeMAX)
    ∧ OEv.fileAlloc ∉ (sys_open_resolved ip allocOk fdRes).1
    ∧ (∀ fd, OEv.fdInstall fd ∉ (sys_open_resolved ip allocOk fdRes).1) := by
  have h : sys_open_resolved ip allocOk fdRes
      = ([OEv.beginOp, OEv.inodeRelease, OEv.endOp], usizeMAX) := by
    unfold sys_open_resolved
    rw [if_pos ⟨htyp, hmaj⟩]
  refine ⟨h, ?_, ?_⟩
  · rw [h]; simp
  · intro fd; rw [h]; simp

/-- Witness for C10: opening a device with major 10 (= `NDEV`) fails
with only release and transaction-end actions. -/
theorem sys_open_bad_major_witness :
    sys_open_resolved ⟨T_DEVICE, 10, 0, 1, []⟩ true (some 4)
      = ([OEv.beginOp, OEv.inodeRelease, OEv.endOp], usizeMAX)
    ∧ OEv.fileAlloc ∉ (sys_open_resolved ⟨T_DEVICE, 10, 0, 1, []⟩ true (some 4)).1
    ∧ (∀ fd, OEv.fdInstall fd
        ∉ (sys_open_resolved ⟨T_DEVICE, 10, 0, 1, []⟩ true (some 4)).1) :=
  sys_open_bad_major ⟨T_DEVICE, 10, 0, 1, []⟩ true (some 4)
    (by decide) (by decide)

end Rv6
